import Mathlib

/-!
  Shallow embedding of the LuncheonNetwork consensus core
  (blockchain/blockchain.go, wallet/wallet.go) and proofs about it.

  Machine integers are modelled as `Nat` with explicit `% 2^w` wherever the
  Go code can overflow or wrap (uint32 nonces and packed targets, uint64
  balances and timestamps, uint subtraction).  Go runtime faults — index
  out of range, division by zero — are modelled by returning `none` from an
  `Option`-valued function; `panic(err)` in the miner is a distinct
  constructor.  External collaborators that the core only calls through a
  contract (the SHAKE-256 hash, signature validation, the missing block.go
  and utilities sources) enter as function parameters or are modelled from
  the specification, as noted on each definition.
-/

namespace Luncheon

/-- Wrapping uint64 subtraction: the value of `a - b` on Go `uint64`
operands (operands are first reduced to their 64-bit values). -/
def usub64 (a b : Nat) : Nat :=
  (a % 2 ^ 64 + (2 ^ 64 - b % 2 ^ 64)) % 2 ^ 64

/-- Modelled from the spec: utilities.ByteUtil.Uint32toB (utilities is not
under src/) serializes a uint32 into 4 bytes; only byte order is unpinned,
so a fixed big-endian injective encoding is used. -/
def u32b (n : Nat) : List Nat :=
  [n / 16777216 % 256, n / 65536 % 256, n / 256 % 256, n % 256]

/-- Modelled from the spec: utilities.ByteUtil.Uint64toB (utilities is not
under src/) serializes a uint64 into 8 bytes, big-endian here. -/
def u64b (n : Nat) : List Nat :=
  [n / 2 ^ 56 % 256, n / 2 ^ 48 % 256, n / 2 ^ 40 % 256, n / 2 ^ 32 % 256,
   n / 16777216 % 256, n / 65536 % 256, n / 256 % 256, n % 256]

/-- Blockchain.GetBlockReward (blockchain.go).  `halvings` is uint32
division by 525600; the divisor `2 << (halvings-1)` is computed in uint64,
so for `halvings ≥ 64` it is 0 and the Go code faults with a division by
zero, modelled as `none`. -/
def getBlockReward (height : Nat) : Option Nat :=
  let halvings := height % 2 ^ 32 / 525600
  if halvings = 0 then
    some (200 * 1000000)
  else
    let d := (2 <<< (halvings - 1)) % 2 ^ 64
    if d = 0 then none else some (200 / d * 1000000)

/-- Minimal number of bytes needed to store a natural number. -/
def byteLen (n : Nat) : Nat :=
  if n = 0 then 0 else byteLen (n / 256) + 1
termination_by n
decreasing_by exact Nat.div_lt_self (Nat.pos_of_ne_zero (by assumption)) (by norm_num)

/-- Modelled from the spec: utilities.TargetUnpacker.Unpack (utilities is
not under src/) expands a 32-bit compact target: exponent byte is the byte
length, the low three bytes are the mantissa, shifted into place, in
256-bit arithmetic. -/
def unpack (c : Nat) : Nat :=
  let exp := (c % 2 ^ 32) >>> 24
  let mantissa := c % 2 ^ 32 &&& 0xFFFFFF
  if exp ≤ 3 then mantissa >>> (8 * (3 - exp))
  else mantissa <<< (8 * (exp - 3)) % 2 ^ 256

/-- Modelled from the spec: utilities.TargetPacker.PackTargetUint256
(utilities is not under src/) re-packs a 256-bit target: the exponent is
the byte length, the mantissa the top three significant bytes, left-padded
with a zero byte (incrementing the exponent) when its top bit would
otherwise be set. -/
def pack (t : Nat) : Nat :=
  let len := byteLen t
  let m := if len ≤ 3 then t <<< (8 * (3 - len)) else t >>> (8 * (len - 3))
  if 0x800000 ≤ m then (len + 1) <<< 24 ||| m >>> 8
  else len <<< 24 ||| m

/-- transactions.LuTx as used by wallet.go (the tx entity source with these
fields is not under src/; the fields and their widths are those the wallet
code reads: from/to/signature strings, uint64 value and fee, uint32 nonce). -/
structure Tx where
  TxFrom : String
  TxTo : String
  Value : Nat
  Fee : Nat
  Nonce : Nat
  Signature : String
deriving DecidableEq

/-- blockchain.Block (block.go is not under src/; the fields and widths are
those blockchain.go and wallet.go read).  Hash-valued and byte-valued
fields are modelled directly as byte lists (the Go code stores them hex
encoded and decodes them before hashing; hex encoding is injective, so
equality of the strings is equality of the byte lists). -/
structure Block where
  SoftwareVersion : List Nat
  PrevHash : List Nat
  MerkleRoot : List Nat
  Timestamp : Nat
  PackedTarget : Nat
  Nonce : Nat
  Miner : String
  Txs : List Tx
  BlockHash : List Nat
deriving DecidableEq

/-- The zero value `Block{}` that Blockchain.GetBlock returns on a failed
lookup. -/
def emptyBlock : Block :=
  ⟨[], [], [], 0, 0, 0, "", [], []⟩

/-- The block stored at an index, with the zero block as default; used only
to phrase theorems about in-range indices. -/
def blockAt (chain : List Block) (i : Nat) : Block :=
  (chain.get? i).getD emptyBlock

/-- Blockchain.GetHeight (blockchain.go): `uint(len(b.Blocks) - 1)`, a
wrapping uint subtraction — on an empty chain this is `2^64 - 1`. -/
def getHeight (chain : List Block) : Nat :=
  usub64 chain.length 1

/-- Blockchain.GetBlock (blockchain.go): returns the stored block and true
when the index passes the height bound, otherwise the zero block and
false.  Indexing past the end of the slice is a Go runtime fault (`none`). -/
def getBlock (chain : List Block) (blockNum : Nat) : Option (Block × Bool) :=
  if getHeight chain < blockNum then some (emptyBlock, false)
  else
    match chain.get? blockNum with
    | some b => some (b, true)
    | none => none

/-- Blockchain.CalculatePackedTarget (blockchain.go).  Index arithmetic is
wrapping uint subtraction, an out-of-range index or a division by zero
(equal boundary timestamps) is a Go runtime fault (`none`); the 256-bit
multiply truncates mod `2^256` and the result is clamped to the genesis
target `0x1d0fffff`. -/
def calculatePackedTarget (chain : List Block) (blockNumber : Nat) : Option Nat :=
  if chain.length < blockNumber then some 0
  else if blockNumber % 10080 = 0 then
    match chain.get? (usub64 blockNumber 1), chain.get? (usub64 blockNumber 10080) with
    | some bp, some bo =>
      let time := usub64 bp.Timestamp bo.Timestamp
      if time = 0 then none
      else
        let newMultiplier := 10080 * 60 / time
        let newTarget := unpack bp.PackedTarget * newMultiplier % 2 ^ 256
        if unpack 0x1d0fffff < newTarget then some 0x1d0fffff
        else some (pack newTarget)
    | _, _ => none
  else
    match chain.get? (usub64 blockNumber 1) with
    | some bp => some bp.PackedTarget
    | none => none

/-- The inner accumulation loop of Wallet.ScanChainForBalance (wallet.go):
`balance += tx.Value` (uint64) over the transactions of one block whose
`TxTo` matches the key. -/
def txValueFold (k : String) (txs : List Tx) (acc : Nat) : Nat :=
  txs.foldl (fun a t => if t.TxTo = k then (a + t.Value) % 2 ^ 64 else a) acc

/-- The indexed loop of Wallet.ScanChainForBalance: walks the blocks from
index `i`, crediting the block reward to the miner when
`index + 10 < height` and crediting received transaction values.  A
faulting GetBlockReward call propagates as `none`. -/
def scanBal (k : String) (hgt : Nat) : Nat → List Block → Nat → Option Nat
  | _, [], acc => some acc
  | i, b :: rest, acc =>
    if b.Miner = k ∧ i + 10 < hgt then
      match getBlockReward i with
      | none => none
      | some r => scanBal k hgt (i + 1) rest (txValueFold k b.Txs ((acc + r) % 2 ^ 64))
    else scanBal k hgt (i + 1) rest (txValueFold k b.Txs acc)

/-- Wallet.ScanChainForBalance (wallet.go): derives a key's balance by a
full scan of the chain; the height bound `index + 10 < GetHeight()` is
evaluated with `GetHeight() = len - 1`. -/
def scanChainForBalance (chain : List Block) (k : String) : Option Nat :=
  scanBal k (chain.length - 1) 0 chain 0

/-- Wallet.ScanChainForNonce (wallet.go): counts, with a wrapping uint32
counter, the transactions across the whole ledger whose `TxFrom` matches
the key. -/
def scanChainForNonce (chain : List Block) (k : String) : Nat :=
  chain.foldl
    (fun acc b => b.Txs.foldl (fun a t => if t.TxFrom = k then (a + 1) % 2 ^ 32 else a) acc)
    0

/-- Wallet.VerifyTx (wallet.go).  The balance guard is the wrapping uint64
test `balance - (value + fee) > 0`; then the nonce must equal the derived
count; finally the signature check.  Hashing the signature-stripped
transaction bytes and calling ellip.ValidateSig (an external collaborator,
not under src/) is a pure function of the transaction, abstracted as the
parameter `sigOk`. -/
def verifyTx (sigOk : Tx → Bool) (chain : List Block) (tx : Tx) : Option Bool :=
  match scanChainForBalance chain tx.TxFrom with
  | none => none
  | some bal =>
    if 0 < usub64 bal (tx.Value + tx.Fee) then some false
    else if tx.Nonce ≠ scanChainForNonce chain tx.TxFrom then some false
    else some (sigOk tx)

/-- Modelled from the spec: Block.RemoveTx (block.go is not under src/)
removes the transaction at the given index from the block's list in
place. -/
def removeTx (txs : List Tx) (i : Nat) : List Tx :=
  txs.eraseIdx i

/-- One pass of the transaction sweep of Wallet.VerifyBlock (wallet.go):
walks the list by index, re-reading the length each iteration, removing
the entry when the verdict is false and then incrementing the index
either way; a faulting verdict propagates as `none`.  The loop advances
the index every step while the length never grows, so the remaining
iteration count `txs.length - i` strictly decreases; it is made explicit
as structural fuel and never runs out before the guard fails (see
`sweepAux_fuel_irrelevant`). -/
def sweepAux (p : Tx → Option Bool) : Nat → List Tx → Nat → Option (List Tx)
  | 0, txs, _ => some txs
  | fuel + 1, txs, i =>
    if h : i < txs.length then
      match p (txs.get ⟨i, h⟩) with
      | none => none
      | some true => sweepAux p fuel txs (i + 1)
      | some false => sweepAux p fuel (removeTx txs i) (i + 1)
    else some txs

/-- The transaction sweep of Wallet.VerifyBlock, started with exactly the
fuel its loop can consume. -/
def sweepTxs (p : Tx → Option Bool) (txs : List Tx) (i : Nat) : Option (List Tx) :=
  sweepAux p (txs.length - i) txs i

/-- The header byte string Wallet.VerifyBlock hashes: software version,
previous hash, merkle root, packed target, timestamp, nonce, in the order
the Go code appends them. -/
def headerBytes (b : Block) : List Nat :=
  b.SoftwareVersion ++ b.PrevHash ++ b.MerkleRoot ++
    u32b b.PackedTarget ++ u64b b.Timestamp ++ u32b b.Nonce

/-- Wallet.VerifyBlock (wallet.go).  The SHAKE-256 hash over the header
bytes is the parameter `hashF`, Block.GetMerkleRoot (block.go is not under
src/) is the parameter `merkleF`, the wall clock is `now`, and the
configured utilities.SoftwareVersion constant is `swV`.  The verdict is
returned together with the (possibly pruned) block; a runtime fault is
`none`. -/
def verifyBlock (hashF : List Nat → List Nat) (merkleF : List Tx → List Nat)
    (sigOk : Tx → Bool) (swV : List Nat) (now : Nat)
    (chain : List Block) (block : Block) (checkSoftwareVersion : Bool) :
    Option (Bool × Block) :=
  if chain.length = 1 then some (true, block)
  else if checkSoftwareVersion ∧ block.SoftwareVersion ≠ swV then some (false, block)
  else if hashF (headerBytes block) ≠ block.BlockHash then some (false, block)
  else
    match chain.get? (getHeight chain) with
    | none => none
    | some tip =>
      if block.PrevHash ≠ tip.BlockHash then some (false, block)
      else if block.Timestamp < tip.Timestamp ∨ now < block.Timestamp then some (false, block)
      else
        match calculatePackedTarget chain chain.length with
        | none => none
        | some tgt =>
          if block.PackedTarget ≠ tgt then some (false, block)
          else if block.MerkleRoot ≠ merkleF block.Txs then some (false, block)
          else
            match sweepTxs (verifyTx sigOk chain) block.Txs 0 with
            | none => none
            | some txs => some (true, { block with Txs := txs })

/-- Miner.inputTarget (blockchain.go): rejects a zero target and a target
above `0x1dffffff`. -/
def inputTarget (t : Nat) : Except String Unit :=
  if t % 2 ^ 32 = 0 then Except.error "cannot input target 0"
  else if 0x1dffffff < t % 2 ^ 32 then Except.error "target is to large"
  else Except.ok ()

/-- The observable outcomes of Miner.Start: a Go panic, a returned error,
a mined block (winning nonce and its hash value), or — under a fuel
semantics — still running. -/
inductive MinerResult where
  | panicked : String → MinerResult
  | err : String → MinerResult
  | ok : Nat → Nat → MinerResult
  | running : MinerResult
deriving DecidableEq

/-- The mining loop of Miner.Start (blockchain.go), with a pinned
timestamp: `for nonce = 0; nonce <= 0xFFFFFFFF; nonce++` over a uint32
nonce (so the guard is total and the increment wraps), hashing the
captured block bytes followed by the nonce bytes and accepting the first
hash at or below the unpacked target.  The hash-to-number comparison is
per the spec (the byte comparison is numeric big-endian); the SHAKE-256
digest value is the parameter `hashV`.  Fuel counts loop iterations;
running out of fuel means the loop is still running. -/
def mineLoop (hashV : List Nat → Nat) (bb : List Nat) (target : Nat) :
    Nat → Nat → MinerResult
  | 0, _ => .running
  | fuel + 1, n =>
    if n ≤ 0xFFFFFFFF then
      if hashV (bb ++ u32b n) ≤ target then .ok n (hashV (bb ++ u32b n))
      else mineLoop hashV bb target fuel ((n + 1) % 2 ^ 32)
    else .err "you have reached the end of the defined search space! Impressive"

/-- Miner.Start (blockchain.go).  `blockBytes` is the candidate's
serialized form from Block.ParseBlockToBytes (block.go is not under src/),
treated opaquely; a nil result is the empty list.  An inputTarget error is
fed to `panic`, modelled as the `panicked` outcome. -/
def minerStart (hashV : List Nat → Nat) (blockBytes : List Nat) (pt : Nat)
    (fuel : Nat) : MinerResult :=
  if blockBytes = [] then .err "please input a block with data inside it"
  else
    match inputTarget pt with
    | .error e => .panicked e
    | .ok _ => mineLoop hashV blockBytes (unpack pt) fuel 0

/-! ## Specification-side definitions

These follow the words of the specification, for comparison with the
definitions translated from the source. -/

/-- Follows the spec's words: the reward schedule
`halvings = height / 525600`, 200_000_000 before the first halving, then
`(200 / 2^halvings) * 1_000_000` with integer division. -/
def specReward (h : Nat) : Nat :=
  if h / 525600 = 0 then 200000000 else 200 / 2 ^ (h / 525600) * 1000000

/-- Sum of the values of the transactions in one list received by a key. -/
def receivedSum (k : String) (txs : List Tx) : Nat :=
  ((txs.filter fun t => t.TxTo = k).map Tx.Value).sum

/-- Follows the spec's words: the declarative balance — received values
plus the reward of every block the key mined that has, measured against
the height `hgt`, at least `d` further blocks on top (`i + d ≤ hgt`). -/
def specBalAux (d : Nat) (k : String) (hgt : Nat) : Nat → List Block → Nat
  | _, [] => 0
  | i, b :: rest =>
    (if b.Miner = k ∧ i + d ≤ hgt then specReward i else 0) + receivedSum k b.Txs +
      specBalAux d k hgt (i + 1) rest

/-- Follows the spec's words: balance = sum of received transaction values
plus block rewards matured at depth `d`. -/
def specBalance (d : Nat) (chain : List Block) (k : String) : Nat :=
  specBalAux d k (chain.length - 1) 0 chain

/-! ## Concrete instances used by counterexamples and witnesses -/

/-- A one-block chain whose only transaction pays 10 to alice. -/
def chainC1 : List Block :=
  [{ emptyBlock with Txs := [⟨"g", "alice", 10, 0, 0, ""⟩], Miner := "bob" }]

/-- A spend of 1 plus fee 1 by alice, with the correct nonce. -/
def txC1 : Tx := ⟨"alice", "bob", 1, 1, 0, ""⟩

/-- A transaction that fails verify_tx against `chainC3` (alice has no
balance to cover value 1). -/
def txBad1 : Tx := ⟨"a", "b", 1, 0, 0, ""⟩

/-- A second failing transaction, adjacent to `txBad1`. -/
def txBad2 : Tx := ⟨"a", "b", 2, 0, 0, ""⟩

/-- The tip block of the two-block chain `chainC3`. -/
def tipC3 : Block := { emptyBlock with BlockHash := [9], PackedTarget := 5 }

/-- A two-block chain (so the genesis fast path is not taken). -/
def chainC3 : List Block := [emptyBlock, tipC3]

/-- A candidate block that passes every header rule of verify_block
against `chainC3` (with the constant hash `fun _ => [9]` and constant
merkle function `fun _ => [3]`) and carries two adjacent failing
transactions. -/
def blockC3 : Block :=
  { SoftwareVersion := [], PrevHash := [9], MerkleRoot := [3], Timestamp := 0,
    PackedTarget := 5, Nonce := 0, Miner := "", Txs := [txBad1, txBad2], BlockHash := [9] }

/-- An 11-block chain whose genesis was mined by "m": exactly 10 further
blocks sit on top of block 0. -/
def chainC4 : List Block :=
  { emptyBlock with Miner := "m" } :: List.replicate 10 { emptyBlock with Miner := "x" }

/-- A 12-block chain whose genesis was mined by "m": 11 further blocks on
top of block 0. -/
def chainC4w : List Block :=
  { emptyBlock with Miner := "m" } :: List.replicate 11 { emptyBlock with Miner := "x" }

/-- A chain of 10080 identical blocks: the retarget boundary at block
10080 sees an elapsed time of zero. -/
def chainC5 : List Block := List.replicate 10080 emptyBlock

/-- A block with timestamp 60 and the genesis target, filling a healthy
retarget window. -/
def blockC5b : Block := { emptyBlock with Timestamp := 60, PackedTarget := 0x1d0fffff }

/-- A 10080-block chain whose window elapsed 60 seconds: the retarget at
block 10080 multiplies the target by 10080 and clamps. -/
def chainC5w : List Block := emptyBlock :: List.replicate 10079 blockC5b

/-- A hash-value function for the mining theorems: nonce 2 hashes to 0,
every other input to 1. -/
def mineHashW : List Nat → Nat := fun bs => if bs = 7 :: u32b 2 then 0 else 1

/-! ## Helper lemmas -/

/-- Wrapping uint64 subtraction agrees with truncated subtraction when the
minuend is in range and at least the subtrahend. -/
lemma usub64_eq_sub (a b : Nat) (ha : a < 2 ^ 64) (hba : b ≤ a) : usub64 a b = a - b := by
  have hb : b < 2 ^ 64 := lt_of_le_of_lt hba ha
  unfold usub64
  rw [Nat.mod_eq_of_lt ha, Nat.mod_eq_of_lt hb]
  have h1 : a + (2 ^ 64 - b) = a - b + 2 ^ 64 := by omega
  rw [h1, Nat.add_mod_right, Nat.mod_eq_of_lt (by omega)]

/-- An in-range lookup returns the block `blockAt` names. -/
lemma get?_eq_blockAt (chain : List Block) (i : Nat) (h : i < chain.length) :
    chain.get? i = some (blockAt chain i) := by
  rw [blockAt, List.get?_eq_get h]
  rfl

/-- Every in-range lookup into a replicated list returns the repeated
element. -/
lemma replicate_get? {α : Type} (a : α) :
    ∀ (n i : Nat), i < n → (List.replicate n a).get? i = some a := by
  intro n
  induction n with
  | zero => intro i hi; omega
  | succ m ih =>
    intro i hi
    cases i with
    | zero => rfl
    | succ j => exact ih j (by omega)

/-- Removing an in-range index shortens the list by one. -/
lemma removeTx_length (txs : List Tx) (i : Nat) (h : i < txs.length) :
    (removeTx txs i).length + 1 = txs.length := by
  simpa [removeTx] using List.length_eraseIdx_add_one h

/-- Any fuel at least the remaining iteration count gives the sweep the
same result: the fuel encoding never cuts the loop short. -/
lemma sweepAux_fuel_irrelevant (p : Tx → Option Bool) :
    ∀ (fuel fuel' : Nat) (txs : List Tx) (i : Nat),
      txs.length - i ≤ fuel → txs.length - i ≤ fuel' →
      sweepAux p fuel txs i = sweepAux p fuel' txs i := by
  intro fuel
  induction fuel with
  | zero =>
    intro fuel' txs i hf hf'
    have hge : ¬ i < txs.length := by omega
    cases fuel' with
    | zero => rfl
    | succ f' => simp [sweepAux, hge]
  | succ f ih =>
    intro fuel' txs i hf hf'
    cases fuel' with
    | zero =>
      have hge : ¬ i < txs.length := by omega
      simp [sweepAux, hge]
    | succ f' =>
      by_cases h : i < txs.length
      · have hrem := removeTx_length txs i h
        simp only [sweepAux, dif_pos h]
        cases p (txs.get ⟨i, h⟩) with
        | none => rfl
        | some b =>
          cases b with
          | true => exact ih f' txs (i + 1) (by omega) (by omega)
          | false => exact ih f' (removeTx txs i) (i + 1) (by omega) (by omega)
      · simp [sweepAux, h]

/-! ## Claim theorems -/

/-- C1: the claim says verify_tx rejects when the sender's derived balance
is below `value + fee` and does not reject on the balance rule when the
balance suffices.  The code's guard `balance - (value + fee) > 0` is a
wrapping uint64 test and rejects every transaction whose balance differs
from `value + fee` — here alice holds 10, spends 1 with fee 1 (sufficient),
has the correct nonce and a valid signature, yet VerifyTx returns false. -/
theorem verifyTx_rejects_sufficient_balance :
    scanChainForBalance chainC1 "alice" = some 10 ∧
    txC1.Value + txC1.Fee = 2 ∧
    txC1.Nonce = scanChainForNonce chainC1 "alice" ∧
    verifyTx (fun _ => true) chainC1 txC1 = some false := by
  decide

/-- C6: the reward schedule at its stated checkpoints — 200_000_000 before
the first halving, 100_000_000 at 525600, 50_000_000 at 2·525600, 0 at the
8th halving boundary — but at 64 halvings (height 64·525600, well inside
uint32) the divisor `2 << (halvings-1)` is 0 in uint64 and GetBlockReward
faults with a division by zero instead of returning 0. -/
theorem getBlockReward_schedule_and_fault :
    getBlockReward 0 = some 200000000 ∧
    getBlockReward 525600 = some 100000000 ∧
    getBlockReward (525600 * 2) = some 50000000 ∧
    getBlockReward (525600 * 8) = some 0 ∧
    getBlockReward (525600 * 64) = none := by
  decide

/-- C7: the claim says an invalid target (zero or above 0x1dffffff) makes
Miner.Start fail with an error returned to the caller, never a fatal
abort; the code instead feeds the inputTarget error to `panic`, so both
invalid targets end in a panic, not a returned error. -/
theorem minerStart_panics_on_invalid_target :
    minerStart (fun _ => 1) [7] 0 100 = MinerResult.panicked "cannot input target 0" ∧
    minerStart (fun _ => 1) [7] 0x1e000000 100 = MinerResult.panicked "target is to large" := by
  decide

/-- C9: a transaction whose nonce differs from the sender's derived count
is rejected by VerifyTx (whichever way the earlier balance guard goes,
the result is false), provided the balance scan itself returns. -/
theorem verifyTx_wrong_nonce_fails (sigOk : Tx → Bool) (chain : List Block) (tx : Tx)
    (bal : Nat) (hbal : scanChainForBalance chain tx.TxFrom = some bal)
    (hn : tx.Nonce ≠ scanChainForNonce chain tx.TxFrom) :
    verifyTx sigOk chain tx = some false := by
  unfold verifyTx
  rw [hbal]
  by_cases h : 0 < usub64 bal (tx.Value + tx.Fee)
  · simp [h]
  · simp [h, hn]

/-- Witness for C9: on the empty ledger a transaction with nonce 5 is
rejected. -/
theorem verifyTx_wrong_nonce_fails_witness :
    scanChainForBalance ([] : List Block) "a" = some 0 ∧
    (5 : Nat) ≠ scanChainForNonce ([] : List Block) "a" ∧
    verifyTx (fun _ => true) [] ⟨"a", "b", 0, 0, 5, ""⟩ = some false :=
  ⟨by decide, by decide,
    verifyTx_wrong_nonce_fails (fun _ => true) [] ⟨"a", "b", 0, 0, 5, ""⟩ 0
      (by decide) (by decide)⟩

/-- C10: on a non-empty chain, GetBlock returns the stored block with true
for every index up to `height = length - 1` and the zero block with false
beyond it; on the empty chain the wrapped height `2^64 - 1` lets every
index through the bound and the lookup is a runtime fault. -/
theorem getBlock_bounds (chain : List Block) (bn : Nat)
    (hne : chain ≠ []) (hlen : chain.length < 2 ^ 64) (hbn : bn < 2 ^ 64) :
    (bn ≤ chain.length - 1 → getBlock chain bn = some (blockAt chain bn, true)) ∧
    (chain.length - 1 < bn → getBlock chain bn = some (emptyBlock, false)) ∧
    getBlock [] bn = none := by
  have hpos : 0 < chain.length := List.length_pos.mpr hne
  have hh : getHeight chain = chain.length - 1 := usub64_eq_sub _ _ hlen hpos
  refine ⟨?_, ?_, ?_⟩
  · intro h
    unfold getBlock
    rw [hh, if_neg (not_lt.mpr h), get?_eq_blockAt chain bn (by omega)]
  · intro h
    unfold getBlock
    rw [hh, if_pos h]
  · unfold getBlock getHeight
    have h1 : usub64 (List.length ([] : List Block)) 1 = 2 ^ 64 - 1 := by decide
    rw [h1, if_neg (by omega)]
    rfl

/-- Witness for C10 at the one-block chain and index 0. -/
theorem getBlock_bounds_witness :
    ((0 : Nat) ≤ [emptyBlock].length - 1 →
      getBlock [emptyBlock] 0 = some (blockAt [emptyBlock] 0, true)) ∧
    ([emptyBlock].length - 1 < 0 → getBlock [emptyBlock] 0 = some (emptyBlock, false)) ∧
    getBlock [] 0 = none :=
  getBlock_bounds [emptyBlock] 0 (by decide) (by decide) (by decide)

/-- The mining loop, started at or below the least satisfying nonce with
enough fuel to reach it, returns exactly that nonce and its hash. -/
lemma mineLoop_finds (hashV : List Nat → Nat) (bb : List Nat) (target n0 : Nat)
    (hn : n0 < 2 ^ 32)
    (hsat : hashV (bb ++ u32b n0) ≤ target)
    (hmin : ∀ m, m < n0 → target < hashV (bb ++ u32b m)) :
    ∀ fuel k, k ≤ n0 → n0 - k < fuel →
      mineLoop hashV bb target fuel k = MinerResult.ok n0 (hashV (bb ++ u32b n0)) := by
  intro fuel
  induction fuel with
  | zero => intro k hk hf; omega
  | succ f ih =>
    intro k hk hf
    have hg : k ≤ 0xFFFFFFFF := by omega
    by_cases he : k = n0
    · subst he
      simp [mineLoop, hg, hsat]
    · have hlt : k < n0 := by omega
      have hnot : ¬ hashV (bb ++ u32b k) ≤ target := not_le.mpr (hmin k hlt)
      have hmod : (k + 1) % 2 ^ 32 = k + 1 := Nat.mod_eq_of_lt (by omega)
      simp only [mineLoop, if_pos hg, if_neg hnot, hmod]
      exact ih (k + 1) (by omega) (by omega)

/-- When no 32-bit nonce hashes at or below the target, the loop is still
running after any amount of fuel: the loop guard is total on a uint32 and
the increment wraps, so no exit is ever taken. -/
lemma mineLoop_no_solution (hashV : List Nat → Nat) (bb : List Nat) (target : Nat)
    (hnone : ∀ n, n < 2 ^ 32 → target < hashV (bb ++ u32b n)) :
    ∀ fuel k, k < 2 ^ 32 → mineLoop hashV bb target fuel k = MinerResult.running := by
  intro fuel
  induction fuel with
  | zero => intro k _; rfl
  | succ f ih =>
    intro k hk
    have hg : k ≤ 0xFFFFFFFF := by omega
    have hnot : ¬ hashV (bb ++ u32b k) ≤ target := not_le.mpr (hnone k hk)
    simp only [mineLoop, if_pos hg, if_neg hnot]
    exact ih _ (Nat.mod_lt _ (by norm_num))

/-- C2: with a non-empty candidate, a valid nonzero packed target, and a
pinned timestamp (the hashed bytes are fixed across iterations), if `n0`
is the first 32-bit nonce whose hash is at or below the unpacked target
then Miner.Start returns exactly that nonce together with its hash, and
that hash is at or below the target. -/
theorem minerStart_first_nonce (hashV : List Nat → Nat) (bb : List Nat) (pt n0 : Nat)
    (hb : bb ≠ [])
    (hpt0 : ¬ pt % 2 ^ 32 = 0)
    (hptM : pt % 2 ^ 32 ≤ 0x1dffffff)
    (hn : n0 < 2 ^ 32)
    (hsat : hashV (bb ++ u32b n0) ≤ unpack pt)
    (hmin : ∀ m, m < n0 → unpack pt < hashV (bb ++ u32b m)) :
    minerStart hashV bb pt (2 ^ 32) = MinerResult.ok n0 (hashV (bb ++ u32b n0)) ∧
    hashV (bb ++ u32b n0) ≤ unpack pt := by
  refine ⟨?_, hsat⟩
  unfold minerStart inputTarget
  rw [if_neg hb, if_neg hpt0, if_neg (not_lt.mpr hptM)]
  exact mineLoop_finds hashV bb (unpack pt) n0 hn hsat hmin (2 ^ 32) 0 (by omega) (by omega)

/-- Witness for C2: block bytes `[7]`, target 1 (which unpacks to 0), and
a hash function sending nonce 2 to 0 and everything else to 1: the miner
returns nonce 2. -/
theorem minerStart_first_nonce_witness :
    minerStart mineHashW [7] 1 (2 ^ 32) = MinerResult.ok 2 (mineHashW ([7] ++ u32b 2)) ∧
    mineHashW ([7] ++ u32b 2) ≤ unpack 1 :=
  minerStart_first_nonce mineHashW [7] 1 2 (by decide) (by decide) (by decide) (by decide)
    (by decide) (by decide)

/-- C8: the claim says Miner.Start terminates after exhausting the 32-bit
nonce space with an exhaustion error.  In the code the loop variable is a
uint32 and the guard `nonce <= 0xFFFFFFFF` is always true, so the nonce
wraps and the exhaustion return is unreachable: with a hash that never
meets the target, Start is still running after strictly more iterations
than the whole 32-bit space. -/
theorem minerStart_loops_forever :
    minerStart (fun _ => 1) [7] 1 (2 ^ 32 + 2 ^ 32) = MinerResult.running := by
  unfold minerStart inputTarget
  rw [if_neg (by decide : ¬ ([7] : List Nat) = [])]
  rw [if_neg (by decide : ¬ (1 : Nat) % 2 ^ 32 = 0)]
  rw [if_neg (by decide : ¬ 0x1dffffff < (1 : Nat) % 2 ^ 32)]
  exact mineLoop_no_solution (fun _ => 1) [7] (unpack 1)
    (fun n _ => show unpack 1 < 1 by decide) (2 ^ 32 + 2 ^ 32) 0 (by norm_num)

/-- Below 64 halvings the code's reward agrees with the spec's schedule. -/
lemma getBlockReward_eq_specReward (i : Nat) (h : i < 33638400) :
    getBlockReward i = some (specReward i) := by
  unfold getBlockReward specReward
  have hi : i % 2 ^ 32 = i := Nat.mod_eq_of_lt (by omega)
  rw [hi]
  by_cases h0 : i / 525600 = 0
  · simp [h0]
  · have hlt64 : i / 525600 < 64 := (Nat.div_lt_iff_lt_mul (by norm_num)).mpr (by omega)
    have h2 : 2 <<< (i / 525600 - 1) = 2 ^ (i / 525600) := by
      rw [Nat.shiftLeft_eq]
      have hs : i / 525600 - 1 + 1 = i / 525600 := by omega
      calc 2 * 2 ^ (i / 525600 - 1) = 2 ^ (i / 525600 - 1 + 1) := by ring
        _ = 2 ^ (i / 525600) := by rw [hs]
    have hpow : (2 : Nat) ^ (i / 525600) < 2 ^ 64 :=
      Nat.pow_lt_pow_right (by norm_num) hlt64
    have hne : ¬ (2 : Nat) ^ (i / 525600) = 0 :=
      (pow_pos (by norm_num : (0 : Nat) < 2) _).ne'
    rw [if_neg h0, h2, Nat.mod_eq_of_lt hpow, if_neg hne]
    simp [h0]

/-- The received-value fold of the balance scan computes the received sum
of the block, mod `2^64`. -/
lemma txValueFold_eq (k : String) :
    ∀ (txs : List Tx) (acc : Nat), acc < 2 ^ 64 →
      txValueFold k txs acc = (acc + receivedSum k txs) % 2 ^ 64 := by
  intro txs
  induction txs with
  | nil =>
    intro acc ha
    simp only [txValueFold, receivedSum, List.foldl_nil, List.filter_nil, List.map_nil,
      List.sum_nil, Nat.add_zero]
    omega
  | cons t ts ih =>
    intro acc ha
    by_cases h : t.TxTo = k
    · have step : txValueFold k (t :: ts) acc = txValueFold k ts ((acc + t.Value) % 2 ^ 64) := by
        simp [txValueFold, h]
      rw [step, ih _ (Nat.mod_lt _ (by norm_num))]
      have hr : receivedSum k (t :: ts) = t.Value + receivedSum k ts := by
        simp [receivedSum, h]
      rw [hr, Nat.mod_add_mod, add_assoc]
    · have step : txValueFold k (t :: ts) acc = txValueFold k ts acc := by
        simp [txValueFold, h]
      have hr : receivedSum k (t :: ts) = receivedSum k ts := by
        simp [receivedSum, h]
      rw [step, ih _ ha, hr]

/-- The balance-scan loop, run over blocks whose heights stay below the
64-halving fault line, computes the spec's maturity-11 balance mod
`2^64`. -/
lemma scanBal_eq (k : String) (hgt : Nat) :
    ∀ (bs : List Block) (i acc : Nat), acc < 2 ^ 64 → i + bs.length ≤ 33638400 →
      scanBal k hgt i bs acc = some ((acc + specBalAux 11 k hgt i bs) % 2 ^ 64) := by
  intro bs
  induction bs with
  | nil =>
    intro i acc ha _
    simp only [scanBal, specBalAux, Nat.add_zero, Option.some.injEq]
    omega
  | cons b rest ih =>
    intro i acc ha hlen
    have hi : i < 33638400 := by
      have := List.length_cons b rest
      omega
    have hacc1 : ∀ a : Nat, a < 2 ^ 64 → txValueFold k b.Txs a < 2 ^ 64 := by
      intro a haa
      rw [txValueFold_eq k b.Txs a haa]
      exact Nat.mod_lt _ (by norm_num)
    by_cases hc : b.Miner = k ∧ i + 10 < hgt
    · have hc11 : b.Miner = k ∧ i + 11 ≤ hgt := ⟨hc.1, by omega⟩
      have step : scanBal k hgt i (b :: rest) acc =
          scanBal k hgt (i + 1) rest (txValueFold k b.Txs ((acc + specReward i) % 2 ^ 64)) := by
        rw [scanBal, if_pos hc, getBlockReward_eq_specReward i hi]
      rw [step, ih (i + 1) _ (hacc1 _ (Nat.mod_lt _ (by norm_num))) (by simp at hlen; omega)]
      rw [txValueFold_eq k b.Txs _ (Nat.mod_lt _ (by norm_num))]
      have hspec : specBalAux 11 k hgt i (b :: rest) =
          specReward i + receivedSum k b.Txs + specBalAux 11 k hgt (i + 1) rest := by
        rw [specBalAux, if_pos hc11]
      rw [hspec]
      congr 1
      omega
    · have hc11 : ¬ (b.Miner = k ∧ i + 11 ≤ hgt) := by
        intro hx
        exact hc ⟨hx.1, by omega⟩
      have step : scanBal k hgt i (b :: rest) acc =
          scanBal k hgt (i + 1) rest (txValueFold k b.Txs acc) := by
        rw [scanBal, if_neg hc]
      rw [step, ih (i + 1) _ (hacc1 _ ha) (by simp at hlen; omega)]
      rw [txValueFold_eq k b.Txs _ ha]
      have hspec : specBalAux 11 k hgt i (b :: rest) =
          0 + receivedSum k b.Txs + specBalAux 11 k hgt (i + 1) rest := by
        rw [specBalAux, if_neg hc11]
      rw [hspec]
      congr 1
      omega

/-- C4 (amended): for every chain short enough that the reward schedule
never faults, the derived balance is the sum of received values plus the
rewards of blocks mined by the key with at least 11 further blocks on top
(the code's guard `index + 10 < height` needs 11, not 10), mod `2^64`. -/
theorem scanChainForBalance_eq (chain : List Block) (k : String)
    (h : chain.length ≤ 33638400) :
    scanChainForBalance chain k = some (specBalance 11 chain k % 2 ^ 64) := by
  unfold scanChainForBalance specBalance
  rw [scanBal_eq k (chain.length - 1) chain 0 0 (by norm_num) (by omega)]
  rw [Nat.zero_add]

/-- Witness for C4's amended claim at the 12-block chain: block 0's reward
has matured (11 blocks on top). -/
theorem scanChainForBalance_eq_witness :
    scanChainForBalance chainC4w "m" = some (specBalance 11 chainC4w "m" % 2 ^ 64) :=
  scanChainForBalance_eq chainC4w "m" (by decide)

/-- C4 counterexample: on the 11-block chain whose genesis "m" mined,
exactly 10 blocks sit on top of block 0; the claim's maturity-10 balance
credits the 200_000_000 reward, but the code pays nothing. -/
theorem scanChainForBalance_maturity_counterexample :
    scanChainForBalance chainC4 "m" = some 0 ∧
    specBalance 10 chainC4 "m" = 200000000 ∧
    scanChainForBalance chainC4 "m" ≠ some (specBalance 10 chainC4 "m") := by
  decide

/-- C5 (amended): for `1 ≤ blockNumber ≤ length`, CalculatePackedTarget
returns the previous block's packed target unchanged off the 10080
boundary; on the boundary, provided the window's timestamps strictly
increase (the code divides by the elapsed time, so an elapsed time of
zero is a runtime fault, and uint64 subtraction would wrap on decreasing
timestamps), it returns the previous target expanded, multiplied by
`(10080*60) / elapsed` in 256-bit arithmetic, clamped to the genesis
target `0x1d0fffff`, and re-packed. -/
theorem calculatePackedTarget_spec (chain : List Block) (bn : Nat)
    (h1 : 1 ≤ bn) (h2 : bn ≤ chain.length) (hlen : chain.length < 2 ^ 64) :
    (¬ bn % 10080 = 0 →
      calculatePackedTarget chain bn = some (blockAt chain (bn - 1)).PackedTarget) ∧
    (bn % 10080 = 0 →
      (blockAt chain (bn - 10080)).Timestamp < (blockAt chain (bn - 1)).Timestamp →
      (blockAt chain (bn - 1)).Timestamp < 2 ^ 64 →
      calculatePackedTarget chain bn =
        some (if unpack 0x1d0fffff <
                unpack (blockAt chain (bn - 1)).PackedTarget *
                  (10080 * 60 /
                    ((blockAt chain (bn - 1)).Timestamp -
                      (blockAt chain (bn - 10080)).Timestamp)) % 2 ^ 256
              then 0x1d0fffff
              else pack (unpack (blockAt chain (bn - 1)).PackedTarget *
                  (10080 * 60 /
                    ((blockAt chain (bn - 1)).Timestamp -
                      (blockAt chain (bn - 10080)).Timestamp)) % 2 ^ 256))) := by
  have hbn64 : bn < 2 ^ 64 := lt_of_le_of_lt h2 hlen
  have hg1 : ¬ chain.length < bn := not_lt.mpr h2
  have hu1 : usub64 bn 1 = bn - 1 := usub64_eq_sub bn 1 hbn64 h1
  have hget1 : chain.get? (bn - 1) = some (blockAt chain (bn - 1)) :=
    get?_eq_blockAt chain (bn - 1) (by omega)
  constructor
  · intro hmod
    unfold calculatePackedTarget
    rw [if_neg hg1, if_neg hmod, hu1, hget1]
  · intro hmod hts hts64
    have h10080 : 10080 ≤ bn := Nat.le_of_dvd (by omega) (Nat.dvd_of_mod_eq_zero hmod)
    have hu2 : usub64 bn 10080 = bn - 10080 := usub64_eq_sub bn 10080 hbn64 h10080
    have hget2 : chain.get? (bn - 10080) = some (blockAt chain (bn - 10080)) :=
      get?_eq_blockAt chain (bn - 10080) (by omega)
    have hut : usub64 (blockAt chain (bn - 1)).Timestamp
        (blockAt chain (bn - 10080)).Timestamp =
        (blockAt chain (bn - 1)).Timestamp - (blockAt chain (bn - 10080)).Timestamp :=
      usub64_eq_sub _ _ hts64 (le_of_lt hts)
    have htne : ¬ ((blockAt chain (bn - 1)).Timestamp -
        (blockAt chain (bn - 10080)).Timestamp = 0) := by omega
    unfold calculatePackedTarget
    rw [if_neg hg1, if_pos hmod, hu1, hu2, hget1, hget2]
    simp only [hut]
    rw [if_neg htne, apply_ite Option.some]

/-- Witness for C5's amended claim: a 10080-block chain whose window
elapsed 60 seconds retargets at block 10080 with multiplier 10080 and
clamps to the genesis target. -/
theorem calculatePackedTarget_spec_witness :
    calculatePackedTarget chainC5w 10080 = some 0x1d0fffff := by
  have hlen : chainC5w.length = 10080 := by
    rw [chainC5w, List.length_cons, List.length_replicate]
  have e79 : blockAt chainC5w 10079 = blockC5b := by
    unfold blockAt chainC5w
    rw [List.get?_cons_succ, replicate_get? blockC5b 10079 10078 (by norm_num)]
    rfl
  have e0 : blockAt chainC5w 0 = emptyBlock := rfl
  have h := (calculatePackedTarget_spec chainC5w 10080 (by norm_num)
    (by rw [hlen]) (by rw [hlen]; norm_num)).2 (by norm_num)
  rw [show (10080 : Nat) - 1 = 10079 by norm_num, e79, e0] at h
  have h2 := h (by decide) (by decide)
  rw [h2]
  norm_num [blockC5b, emptyBlock]
  decide

/-- C5 counterexample: the claim asserts a value is returned at every
boundary, but on a chain of 10080 equally-timestamped blocks the elapsed
time is zero and CalculatePackedTarget faults with a division by zero. -/
theorem calculatePackedTarget_zero_elapsed_faults :
    calculatePackedTarget chainC5 10080 = none := by
  have hlen : chainC5.length = 10080 := by
    rw [chainC5, List.length_replicate]
  have hg1 : ¬ chainC5.length < 10080 := by rw [hlen]; omega
  have hu1 : usub64 10080 1 = 10079 := by decide
  have hu2 : usub64 10080 10080 = 0 := by decide
  have hget1 : chainC5.get? 10079 = some emptyBlock :=
    replicate_get? emptyBlock 10080 10079 (by norm_num)
  have hget2 : chainC5.get? 0 = some emptyBlock :=
    replicate_get? emptyBlock 10080 0 (by norm_num)
  unfold calculatePackedTarget
  rw [if_neg hg1, if_pos (by norm_num : (10080 : Nat) % 10080 = 0), hu1, hu2, hget1, hget2]
  simp only [emptyBlock]
  rw [if_pos (by decide : usub64 0 0 = 0)]

/-- C3 (amended): once the genesis/version/hash/link/timestamp/target/
merkle rules have passed, the transaction checks never reject the block:
VerifyBlock returns true together with the list produced by the one-pass
in-place sweep — each transaction failing verify_tx is removed and the
index still advances, so the transaction that slides into the removed
slot is skipped rather than checked; the result therefore need not be the
exact subset of transactions passing verify_tx. -/
theorem verifyBlock_returns_sweep (hashF : List Nat → List Nat)
    (merkleF : List Tx → List Nat) (sigOk : Tx → Bool) (swV : List Nat) (now : Nat)
    (chain : List Block) (block : Block) (checkSoftwareVersion : Bool)
    (hlen : 2 ≤ chain.length) (hlen64 : chain.length < 2 ^ 64)
    (hver : checkSoftwareVersion = true → block.SoftwareVersion = swV)
    (hhash : hashF (headerBytes block) = block.BlockHash)
    (hprev : block.PrevHash = (blockAt chain (chain.length - 1)).BlockHash)
    (htime1 : (blockAt chain (chain.length - 1)).Timestamp ≤ block.Timestamp)
    (htime2 : block.Timestamp ≤ now)
    (htgt : calculatePackedTarget chain chain.length = some block.PackedTarget)
    (hmerk : merkleF block.Txs = block.MerkleRoot) :
    verifyBlock hashF merkleF sigOk swV now chain block checkSoftwareVersion =
      Option.map (fun txs => (true, { block with Txs := txs }))
        (sweepTxs (verifyTx sigOk chain) block.Txs 0) := by
  have hne1 : ¬ chain.length = 1 := by omega
  have hnever : ¬ (checkSoftwareVersion ∧ block.SoftwareVersion ≠ swV) := by
    rintro ⟨hc, hs⟩
    exact hs (hver hc)
  have hh : getHeight chain = chain.length - 1 :=
    usub64_eq_sub chain.length 1 hlen64 (by omega)
  have hget : chain.get? (chain.length - 1) = some (blockAt chain (chain.length - 1)) :=
    get?_eq_blockAt chain (chain.length - 1) (by omega)
  have hnt : ¬ (block.Timestamp < (blockAt chain (chain.length - 1)).Timestamp ∨
      now < block.Timestamp) := by omega
  unfold verifyBlock
  rw [if_neg hne1, if_neg hnever, if_neg (by rw [hhash]; exact fun h => h rfl),
    hh, hget]
  simp only
  rw [if_neg (by rw [hprev]; exact fun h => h rfl), if_neg hnt, htgt]
  simp only
  rw [if_neg (fun h => h rfl), if_neg (by rw [hmerk]; exact fun h => h rfl)]
  cases sweepTxs (verifyTx sigOk chain) block.Txs 0 with
  | none => rfl
  | some txs => rfl

/-- Witness for C3's amended claim, at the two-block chain `chainC3` and
the candidate `blockC3` that passes every header rule. -/
theorem verifyBlock_returns_sweep_witness :
    verifyBlock (fun _ => [9]) (fun _ => [3]) (fun _ => true) [] 0 chainC3 blockC3 false =
      Option.map (fun txs => (true, { blockC3 with Txs := txs }))
        (sweepTxs (verifyTx (fun _ => true) chainC3) blockC3.Txs 0) :=
  verifyBlock_returns_sweep (fun _ => [9]) (fun _ => [3]) (fun _ => true) [] 0
    chainC3 blockC3 false (by decide) (by decide) (by decide) (by decide) (by decide)
    (by decide) (by decide) (by decide) (by decide)

/-- C3 counterexample: against `chainC3`, the candidate `blockC3` passes
all header rules and carries two adjacent transactions both failing
verify_tx; VerifyBlock accepts it but the sweep skips the second failing
transaction, so the accepted block still contains a transaction that
fails verify_tx — the accepted list is not the passing subset. -/
theorem verifyBlock_keeps_failing_tx :
    verifyBlock (fun _ => [9]) (fun _ => [3]) (fun _ => true) [] 0 chainC3 blockC3 false =
      some (true, { blockC3 with Txs := [txBad2] }) ∧
    verifyTx (fun _ => true) chainC3 txBad2 = some false := by
  decide

end Luncheon
